import Mathlib

/-!
Verification of the coin-change module find_coins.py.

The module defines two functions:
* find_coins_greedy (amount, coins): sorts the denominations in descending
  order and repeatedly takes as many of the largest fitting denomination as
  possible (integer division), recording denomination -> count in a dict.
* find_min_coins (amount, coins): bottom-up dynamic programming over a
  min_coins table (index i holds the minimal coin count for amount i, with
  float inf as the unreachable sentinel) and a parallel coin_used table
  (the last coin written when min_coins[i] was improved), followed by a
  reconstruction walk and a final dict sorted by denomination.

Dictionaries are embedded as association lists in the insertion order the
Python code produces; Python dict equality is key/value equality, and in all
results below every key is distinct, so list equality of the canonical forms
coincides with dict equality.  The embedding below is over Nat for the
documented precondition domain (amount at least 0, denominations positive);
a second model over Int with an Except monad reproduces the raw Python
semantics (floor division, negative indexing, exceptions) outside that
domain.
-/

set_option maxRecDepth 8000

namespace FindCoins

/-- Weighted sum of a decomposition mapping: sum over entries of
denomination times count. -/
def weightedSum (m : List (Nat × Nat)) : Nat :=
  (m.map (fun p => p.1 * p.2)).sum

/-- Total coin count of a decomposition mapping: sum of the counts. -/
def totalCount (m : List (Nat × Nat)) : Nat :=
  (m.map (fun p => p.2)).sum

/-- The for-loop of find_coins_greedy: walks the (descending-sorted) coin
list, breaks when the remaining amount is 0, and for each coin with
positive quotient records (coin, amount // coin) and replaces the amount by
amount % coin. -/
def greedyLoop : List Nat → Nat → List (Nat × Nat) → List (Nat × Nat)
  | [], _, result => result
  | coin :: rest, amount, result =>
    if amount = 0 then result
    else
      let count := amount / coin
      if 0 < count then greedyLoop rest (amount % coin) (result ++ [(coin, count)])
      else greedyLoop rest amount result

/-- find_coins_greedy from find_coins.py: sort the coins in descending
order (sorted with reverse=True) and run the greedy loop starting from the
full amount and an empty dict. -/
def find_coins_greedy (amount : Nat) (coins : List Nat) : List (Nat × Nat) :=
  greedyLoop (List.insertionSort (fun a b => b ≤ a) coins) amount []

/-- Entries of the min_coins table: some k is the Python int k, none is the
float inf sentinel. -/
abbrev Cost := Option Nat

/-- Adding 1 to a table entry: inf + 1 is inf in Python float arithmetic. -/
def costSucc : Cost → Cost
  | none => none
  | some n => some (n + 1)

/-- Strict comparison of table entries, matching Python comparison of ints
and float inf: inf is less than nothing, every int is less than inf. -/
def costLt : Cost → Cost → Bool
  | none, _ => false
  | some _, none => true
  | some a, some b => decide (a < b)

/-- The two parallel tables of find_min_coins. -/
structure DPState where
  minCoins : List Cost
  coinUsed : List Nat

/-- Body of the inner loop of find_min_coins at index i: if
min_coins[i - coin] + 1 < min_coins[i], write the improved cost and record
coin in coin_used[i]. -/
def dpUpdate (coin : Nat) (s : DPState) (i : Nat) : DPState :=
  let cand := costSucc (s.minCoins.getD (i - coin) none)
  if costLt cand (s.minCoins.getD i none) then
    ⟨s.minCoins.set i cand, s.coinUsed.set i coin⟩
  else s

/-- The inner loop of find_min_coins for one coin: for i in
range(coin, amount + 1). -/
def dpPass (amount coin : Nat) (s : DPState) : DPState :=
  (List.range' coin (amount + 1 - coin)).foldl (dpUpdate coin) s

/-- Initial tables: min_coins = [inf] * (amount + 1) with min_coins[0] = 0,
and coin_used = [0] * (amount + 1). -/
def initState (amount : Nat) : DPState :=
  ⟨(List.replicate (amount + 1) (none : Cost)).set 0 (some 0),
   List.replicate (amount + 1) 0⟩

/-- The outer loop of find_min_coins: one pass per coin, in list order. -/
def dpRun (amount : Nat) (coins : List Nat) : DPState :=
  coins.foldl (fun s coin => dpPass amount coin s) (initState amount)

/-- The reconstruction while-loop of find_min_coins, collecting the coins
it adds to the result dict in order.  The loop runs while current > 0,
reading coin_used[current] and subtracting it; the fuel argument bounds the
number of iterations (the callers pass amount, which suffices because under
the precondition every step strictly decreases current, as proved below). -/
def reconstruct (coinUsed : List Nat) : Nat → Nat → List Nat
  | 0, _ => []
  | Nat.succ fuel, current =>
    if 0 < current then
      coinUsed.getD current 0 :: reconstruct coinUsed fuel (current - coinUsed.getD current 0)
    else []

/-- The final dict(sorted(result.items())) of find_min_coins: the collected
coins grouped into denomination -> count entries sorted by denomination. -/
def toSortedCounts (used : List Nat) : List (Nat × Nat) :=
  (List.insertionSort (fun a b => a ≤ b) used.dedup).map (fun k => (k, used.count k))

/-- find_min_coins from find_coins.py: build the tables, return the empty
dict when min_coins[amount] is still inf, otherwise reconstruct and return
the sorted dict. -/
def find_min_coins (amount : Nat) (coins : List Nat) : List (Nat × Nat) :=
  let s := dpRun amount coins
  if s.minCoins.getD amount none = none then []
  else toSortedCounts (reconstruct s.coinUsed amount amount)

/-- The amount can be formed exactly: some multiset of the given
denominations (as a list, unlimited supply) sums to it. -/
def CanForm (coins : List Nat) (amount : Nat) : Prop :=
  ∃ l : List Nat, (∀ c ∈ l, c ∈ coins) ∧ l.sum = amount

/-- Expansion of a decomposition mapping back into the multiset of coins it
denotes: count copies of each denomination. -/
def expand (m : List (Nat × Nat)) : List Nat :=
  (m.map (fun p => List.replicate p.2 p.1)).flatten

/-- Exceptions (and one divergence marker) of the raw Python model. -/
inductive PyErr where
  | zeroDivisionError
  | indexError
  | fuelExhausted
deriving DecidableEq

/-- Python index resolution on a list of length len: nonnegative indices
must be below len, negative indices i address len + i; anything else raises
IndexError. -/
def pyIndex (len : Nat) (i : Int) : Except PyErr Nat :=
  if 0 ≤ i then
    if i < (len : Int) then Except.ok i.toNat else Except.error PyErr.indexError
  else
    if -i ≤ (len : Int) then Except.ok (len - (-i).toNat) else Except.error PyErr.indexError

/-- Python list read l[i], with negative indexing. -/
def pyGet (l : List α) (i : Int) : Except PyErr α := do
  let j ← pyIndex l.length i
  match l.get? j with
  | some v => Except.ok v
  | none => Except.error PyErr.indexError

/-- Python list write l[i] = v, with negative indexing. -/
def pySet (l : List α) (i : Int) (v : α) : Except PyErr (List α) := do
  let j ← pyIndex l.length i
  Except.ok (l.set j v)

/-- Python range(a, b): the integers from a up to but excluding b. -/
def pyRange (a b : Int) : List Int :=
  (List.range (b - a).toNat).map (fun k => a + k)

/-- Values held by the Python min_coins table: float inf or an int. -/
inductive PyNum where
  | inf
  | int (n : Int)
deriving DecidableEq

/-- Python value + 1 on table entries: inf + 1 is inf. -/
def pyAdd1 : PyNum → PyNum
  | PyNum.inf => PyNum.inf
  | PyNum.int n => PyNum.int (n + 1)

/-- Python strict comparison on table entries. -/
def pyLt : PyNum → PyNum → Bool
  | PyNum.inf, _ => false
  | PyNum.int _, PyNum.inf => true
  | PyNum.int a, PyNum.int b => decide (a < b)

/-- The loop of find_coins_greedy over Python ints: amount // coin is floor
division (ZeroDivisionError on a zero coin), amount %= coin is the
floor-convention remainder. -/
def findCoinsGreedyPyLoop : List Int → Int → List (Int × Int) → Except PyErr (List (Int × Int))
  | [], _, result => Except.ok result
  | coin :: rest, amount, result =>
    if amount = 0 then Except.ok result
    else if coin = 0 then Except.error PyErr.zeroDivisionError
    else
      let count := Int.fdiv amount coin
      if 0 < count then findCoinsGreedyPyLoop rest (Int.fmod amount coin) (result ++ [(coin, count)])
      else findCoinsGreedyPyLoop rest amount result

/-- find_coins_greedy over raw Python int semantics. -/
def findCoinsGreedyPy (amount : Int) (coins : List Int) : Except PyErr (List (Int × Int)) :=
  findCoinsGreedyPyLoop (List.insertionSort (fun a b => b ≤ a) coins) amount []

/-- Inner-loop body of find_min_coins over raw Python semantics:
min_coins[i - coin] is read first, then min_coins[i]; on improvement both
tables are written at i (all reads and writes through Python indexing). -/
def dpUpdatePy (coin : Int) (s : List PyNum × List Int) (i : Int) :
    Except PyErr (List PyNum × List Int) := do
  let prev ← pyGet s.1 (i - coin)
  let cur ← pyGet s.1 i
  if pyLt (pyAdd1 prev) cur then
    let mc ← pySet s.1 i (pyAdd1 prev)
    let cu ← pySet s.2 i coin
    Except.ok (mc, cu)
  else
    Except.ok s

/-- The reconstruction while-loop over raw Python semantics; when the fuel
runs out while current > 0 the model reports fuelExhausted, standing for a
Python execution that never leaves the loop (the callers pass enough fuel
for every terminating Python run under the precondition). -/
def reconPyLoop (coinUsed : List Int) : Nat → Int → List Int → Except PyErr (List Int)
  | 0, current, acc =>
    if 0 < current then Except.error PyErr.fuelExhausted else Except.ok acc
  | Nat.succ fuel, current, acc =>
    if 0 < current then do
      let coin ← pyGet coinUsed current
      reconPyLoop coinUsed fuel (current - coin) (acc ++ [coin])
    else Except.ok acc

/-- Sorted count dict of the collected coins, over Int keys. -/
def toSortedCountsInt (used : List Int) : List (Int × Int) :=
  (List.insertionSort (fun a b => a ≤ b) used.dedup).map (fun k => (k, (used.count k : Int)))

/-- find_min_coins over raw Python semantics: [inf] * (amount + 1) is the
empty list when amount + 1 is nonpositive, so min_coins[0] = 0 raises
IndexError there; otherwise the double loop runs with Python indexing and
the reconstruction walk produces the sorted dict. -/
def findMinCoinsPy (amount : Int) (coins : List Int) : Except PyErr (List (Int × Int)) := do
  let minCoins0 := List.replicate (amount + 1).toNat PyNum.inf
  let minCoins1 ← pySet minCoins0 0 (PyNum.int 0)
  let coinUsed0 := List.replicate (amount + 1).toNat (0 : Int)
  let s ← coins.foldlM
    (fun s coin => (pyRange coin (amount + 1)).foldlM (dpUpdatePy coin) s)
    (minCoins1, coinUsed0)
  let final ← pyGet s.1 amount
  if final = PyNum.inf then Except.ok []
  else do
    let used ← reconPyLoop s.2 amount.toNat amount []
    Except.ok (toSortedCountsInt used)

/-- Non-strict order on table entries, with the inf sentinel as the top
element. -/
def cLe : Cost → Cost → Prop
  | none, none => True
  | none, some _ => False
  | some _, none => True
  | some a, some b => a ≤ b

theorem cLe_refl : ∀ a : Cost, cLe a a
  | none => trivial
  | some _ => Nat.le_refl _

theorem cLe_trans : ∀ {a b c : Cost}, cLe a b → cLe b c → cLe a c := by
  intro a b c h1 h2
  cases a <;> cases b <;> cases c <;> simp [cLe] at * <;> omega

theorem cLe_of_costLt_eq_false : ∀ {a b : Cost}, costLt a b = false → cLe b a := by
  intro a b h
  cases a <;> cases b <;> simp [costLt, cLe] at * <;> omega

theorem cLe_costSucc : ∀ {a b : Cost}, cLe a b → cLe (costSucc a) (costSucc b) := by
  intro a b h
  cases a <;> cases b <;> simp [costSucc, cLe] at * <;> omega

theorem cLe_some_iff {a : Cost} {k : Nat} :
    cLe a (some k) ↔ ∃ j, a = some j ∧ j ≤ k := by
  cases a <;> simp [cLe]

theorem getD_set_self {l : List α} {i : Nat} {v d : α} (h : i < l.length) :
    (l.set i v).getD i d = v := by
  simp [List.getD_eq_getElem?_getD, List.getElem?_set_self', List.getElem?_eq_getElem, h]

theorem getD_set_ne {l : List α} {i j : Nat} {v d : α} (h : i ≠ j) :
    (l.set i v).getD j d = l.getD j d := by
  simp [List.getD_eq_getElem?_getD, List.getElem?_set_ne h]

theorem weightedSum_append (r : List (Nat × Nat)) (c k : Nat) :
    weightedSum (r ++ [(c, k)]) = weightedSum r + c * k := by
  simp [weightedSum]

theorem totalCount_append (r : List (Nat × Nat)) (c k : Nat) :
    totalCount (r ++ [(c, k)]) = totalCount r + k := by
  simp [totalCount]

/-- Remaining amount after the greedy loop has consumed the coin list. -/
def greedyRem : List Nat → Nat → Nat
  | [], rem => rem
  | coin :: rest, rem =>
    if rem = 0 then 0
    else if 0 < rem / coin then greedyRem rest (rem % coin) else greedyRem rest rem

theorem greedyRem_zero : ∀ cs : List Nat, greedyRem cs 0 = 0
  | [] => rfl
  | _ :: _ => by simp [greedyRem]

theorem greedyLoop_sum : ∀ (cs : List Nat) (rem : Nat) (r : List (Nat × Nat)),
    weightedSum (greedyLoop cs rem r) + greedyRem cs rem = weightedSum r + rem := by
  intro cs
  induction cs with
  | nil => intro rem r; simp [greedyLoop, greedyRem]
  | cons coin rest ih =>
    intro rem r
    by_cases h0 : rem = 0
    · subst h0; simp [greedyLoop, greedyRem]
    · by_cases hc : 0 < rem / coin
      · have := ih (rem % coin) (r ++ [(coin, rem / coin)])
        simp only [greedyLoop, greedyRem, if_neg h0, if_pos hc] at *
        rw [this, weightedSum_append]
        have hdm := Nat.div_add_mod rem coin
        omega
      · have := ih rem r
        simp only [greedyLoop, greedyRem, if_neg h0, if_neg hc] at *
        omega

theorem greedyRem_le : ∀ (cs : List Nat) (rem : Nat), greedyRem cs rem ≤ rem := by
  intro cs
  induction cs with
  | nil => intro rem; exact Nat.le_refl _
  | cons coin rest ih =>
    intro rem
    by_cases h0 : rem = 0
    · subst h0; simp [greedyRem]
    · by_cases hc : 0 < rem / coin
      · simp only [greedyRem, if_neg h0, if_pos hc]
        exact Nat.le_trans (ih _) (Nat.le_trans (Nat.mod_le _ _) (Nat.le_refl _))
      · simp only [greedyRem, if_neg h0, if_neg hc]
        exact ih rem

theorem greedyRem_eq_zero_of_one_mem :
    ∀ (cs : List Nat) (rem : Nat), 1 ∈ cs → greedyRem cs rem = 0 := by
  intro cs
  induction cs with
  | nil => intro rem h; cases h
  | cons coin rest ih =>
    intro rem h
    by_cases h0 : rem = 0
    · subst h0; simp [greedyRem]
    · rcases List.mem_cons.mp h with h1 | h1
      · subst h1
        have hc : 0 < rem / 1 := by
          simpa using Nat.pos_of_ne_zero h0
        simp only [greedyRem, if_neg h0, if_pos hc, Nat.mod_one]
        exact greedyRem_zero rest
      · by_cases hc : 0 < rem / coin
        · simp only [greedyRem, if_neg h0, if_pos hc]; exact ih _ h1
        · simp only [greedyRem, if_neg h0, if_neg hc]; exact ih _ h1

theorem greedyLoop_mem : ∀ (cs : List Nat) (rem : Nat) (r : List (Nat × Nat)),
    ∀ p ∈ greedyLoop cs rem r, p ∈ r ∨ p.1 ∈ cs := by
  intro cs
  induction cs with
  | nil => intro rem r p hp; exact Or.inl hp
  | cons coin rest ih =>
    intro rem r p hp
    by_cases h0 : rem = 0
    · subst h0; simp only [greedyLoop, if_pos rfl] at hp; exact Or.inl hp
    · simp only [greedyLoop, if_neg h0] at hp
      by_cases hc : 0 < rem / coin
      · rw [if_pos hc] at hp
        rcases ih _ _ p hp with h | h
        · rcases List.mem_append.mp h with h | h
          · exact Or.inl h
          · simp at h
            right
            rw [h]
            exact List.mem_cons_self _ _
        · exact Or.inr (List.mem_cons_of_mem _ h)
      · rw [if_neg hc] at hp
        rcases ih _ _ p hp with h | h
        · exact Or.inl h
        · exact Or.inr (List.mem_cons_of_mem _ h)

theorem greedyLoop_zero (cs : List Nat) (r : List (Nat × Nat)) :
    greedyLoop cs 0 r = r := by
  cases cs <;> simp [greedyLoop]

theorem find_coins_greedy_sum_add (amount : Nat) (coins : List Nat) :
    weightedSum (find_coins_greedy amount coins)
      + greedyRem (List.insertionSort (fun a b => b ≤ a) coins) amount = amount := by
  simpa [weightedSum] using
    greedyLoop_sum (List.insertionSort (fun a b => b ≤ a) coins) amount []

theorem find_coins_greedy_sum_le (amount : Nat) (coins : List Nat) :
    weightedSum (find_coins_greedy amount coins) ≤ amount := by
  have := find_coins_greedy_sum_add amount coins
  omega

theorem find_coins_greedy_sum_of_one_mem (amount : Nat) (coins : List Nat)
    (h1 : 1 ∈ coins) : weightedSum (find_coins_greedy amount coins) = amount := by
  have hmem : 1 ∈ List.insertionSort (fun a b => b ≤ a) coins := by
    exact (List.perm_insertionSort _ coins).mem_iff.mpr h1
  have := find_coins_greedy_sum_add amount coins
  rw [greedyRem_eq_zero_of_one_mem _ amount hmem] at this
  omega

theorem find_coins_greedy_keys (amount : Nat) (coins : List Nat) :
    ∀ p ∈ find_coins_greedy amount coins, p.1 ∈ coins := by
  intro p hp
  rcases greedyLoop_mem _ amount [] p hp with h | h
  · cases h
  · exact (List.perm_insertionSort _ coins).mem_iff.mp h

theorem cLe_of_costLt_eq_true : ∀ {a b : Cost}, costLt a b = true → cLe a b := by
  intro a b h
  cases a <;> cases b <;> simp [costLt, cLe] at * <;> omega

theorem costLt_of_cLe_left : ∀ {a a' b : Cost}, cLe a' a → costLt a b = true → costLt a' b = true := by
  intro a a' b h1 h2
  cases a <;> cases a' <;> cases b <;> simp [costLt, cLe] at * <;> omega

theorem costLt_some_ne_none : ∀ {a b : Cost}, costLt a b = true → a ≠ none := by
  intro a b h
  cases a <;> cases b <;> simp [costLt] at *

theorem pairwise_lt_range' : ∀ (n s : Nat), (List.range' s n).Pairwise (· < ·)
  | 0, _ => List.Pairwise.nil
  | n + 1, s => by
    rw [List.range'_succ]
    refine List.Pairwise.cons ?_ (pairwise_lt_range' n (s + 1))
    intro b hb
    have := (List.mem_range'_1).mp hb
    omega

/-- Unfolding equation for the inner-loop body. -/
theorem dpUpdate_eq (coin : Nat) (s : DPState) (i : Nat) :
    dpUpdate coin s i =
      if costLt (costSucc (s.minCoins.getD (i - coin) none)) (s.minCoins.getD i none) then
        ⟨s.minCoins.set i (costSucc (s.minCoins.getD (i - coin) none)), s.coinUsed.set i coin⟩
      else s := rfl

theorem dpUpdate_len (coin : Nat) (s : DPState) (i : Nat) :
    (dpUpdate coin s i).minCoins.length = s.minCoins.length ∧
    (dpUpdate coin s i).coinUsed.length = s.coinUsed.length := by
  rw [dpUpdate_eq]
  split
  · exact ⟨List.length_set _ _ _, List.length_set _ _ _⟩
  · exact ⟨rfl, rfl⟩

theorem dpUpdate_getD_ne (coin : Nat) (s : DPState) {i j : Nat} (h : i ≠ j) :
    (dpUpdate coin s i).minCoins.getD j none = s.minCoins.getD j none ∧
    (dpUpdate coin s i).coinUsed.getD j 0 = s.coinUsed.getD j 0 := by
  rw [dpUpdate_eq]
  split
  · exact ⟨getD_set_ne h, getD_set_ne h⟩
  · exact ⟨rfl, rfl⟩

theorem dpUpdate_mono (coin : Nat) (s : DPState) (i j : Nat) :
    cLe ((dpUpdate coin s i).minCoins.getD j none) (s.minCoins.getD j none) := by
  rw [dpUpdate_eq]
  split
  · by_cases hij : i = j
    · subst hij
      by_cases hlen : i < s.minCoins.length
      · rw [getD_set_self hlen]
        exact cLe_of_costLt_eq_true ‹_›
      · rw [List.set_eq_of_length_le (Nat.le_of_not_lt hlen)]
        exact cLe_refl _
    · rw [getD_set_ne hij]
      exact cLe_refl _
  · exact cLe_refl _

/-- Folding the inner-loop body over any index list preserves both table
lengths. -/
theorem foldl_dpUpdate_len (coin : Nat) :
    ∀ (L : List Nat) (s : DPState),
      ((L.foldl (dpUpdate coin) s).minCoins.length = s.minCoins.length ∧
       (L.foldl (dpUpdate coin) s).coinUsed.length = s.coinUsed.length)
  | [], _ => ⟨rfl, rfl⟩
  | i :: L, s => by
    rw [List.foldl_cons]
    have h1 := foldl_dpUpdate_len coin L (dpUpdate coin s i)
    have h2 := dpUpdate_len coin s i
    exact ⟨h1.1.trans h2.1, h1.2.trans h2.2⟩

/-- Indices outside the index list are untouched by the inner loop. -/
theorem foldl_dpUpdate_notmem (coin : Nat) :
    ∀ (L : List Nat) (s : DPState) (j : Nat), j ∉ L →
      ((L.foldl (dpUpdate coin) s).minCoins.getD j none = s.minCoins.getD j none ∧
       (L.foldl (dpUpdate coin) s).coinUsed.getD j 0 = s.coinUsed.getD j 0)
  | [], _, _, _ => ⟨rfl, rfl⟩
  | i :: L, s, j, hj => by
    rw [List.foldl_cons]
    have hij : i ≠ j := fun h => hj (h ▸ List.mem_cons_self _ _)
    have h1 := foldl_dpUpdate_notmem coin L (dpUpdate coin s i) j
      (fun h => hj (List.mem_cons_of_mem _ h))
    have h2 := dpUpdate_getD_ne coin s hij
    exact ⟨h1.1.trans h2.1, h1.2.trans h2.2⟩

/-- The inner loop never increases a min_coins entry. -/
theorem foldl_dpUpdate_mono (coin : Nat) :
    ∀ (L : List Nat) (s : DPState) (j : Nat),
      cLe ((L.foldl (dpUpdate coin) s).minCoins.getD j none) (s.minCoins.getD j none)
  | [], _, _ => cLe_refl _
  | i :: L, s, j => by
    rw [List.foldl_cons]
    exact cLe_trans (foldl_dpUpdate_mono coin L (dpUpdate coin s i) j)
      (dpUpdate_mono coin s i j)

/-- After one inner-loop pass over a strictly increasing index list (all
indices at least coin and inside both tables), every index is either
completely untouched, or its coin_used entry is coin and its min_coins
entry is exactly one more than the final entry coin positions below it. -/
theorem foldl_dpUpdate_cases (coin n : Nat) (hc : 0 < coin) :
    ∀ (L : List Nat) (s : DPState) (j : Nat), L.Pairwise (· < ·) →
      (∀ x ∈ L, coin ≤ x) → (∀ x ∈ L, x < n) →
      s.minCoins.length = n → s.coinUsed.length = n →
      (((L.foldl (dpUpdate coin) s).minCoins.getD j none = s.minCoins.getD j none ∧
        (L.foldl (dpUpdate coin) s).coinUsed.getD j 0 = s.coinUsed.getD j 0) ∨
       (j ∈ L ∧ (L.foldl (dpUpdate coin) s).coinUsed.getD j 0 = coin ∧
        (L.foldl (dpUpdate coin) s).minCoins.getD j none =
          costSucc ((L.foldl (dpUpdate coin) s).minCoins.getD (j - coin) none) ∧
        (L.foldl (dpUpdate coin) s).minCoins.getD j none ≠ none))
  | [], _, _, _, _, _, _, _ => Or.inl ⟨rfl, rfl⟩
  | i :: L, s, j, hpw, hge, hlt_n, hlen1, hlen2 => by
    rw [List.foldl_cons]
    have hpw' := List.Pairwise.of_cons hpw
    have hgt : ∀ x ∈ L, i < x := (List.pairwise_cons.mp hpw).1
    have hge' : ∀ x ∈ L, coin ≤ x := fun x hx => hge x (List.mem_cons_of_mem _ hx)
    have hlt_n' : ∀ x ∈ L, x < n := fun x hx => hlt_n x (List.mem_cons_of_mem _ hx)
    have hupdlen := dpUpdate_len coin s i
    have hlen1' : (dpUpdate coin s i).minCoins.length = n := hupdlen.1.trans hlen1
    have hlen2' : (dpUpdate coin s i).coinUsed.length = n := hupdlen.2.trans hlen2
    by_cases hij : i = j
    · subst hij
      have hin : i < n := hlt_n i (List.mem_cons_self _ _)
      have hci : coin ≤ i := hge i (List.mem_cons_self _ _)
      have hisub : i - coin < i := by omega
      have hiL : i ∉ L := fun h => Nat.lt_irrefl i (hgt i h)
      have hicL : i - coin ∉ L := fun h =>
        Nat.lt_irrefl i (Nat.lt_of_lt_of_le (hgt _ h) (Nat.sub_le _ _))
      have hu1 := foldl_dpUpdate_notmem coin L (dpUpdate coin s i) i hiL
      have hu2 := foldl_dpUpdate_notmem coin L (dpUpdate coin s i) (i - coin) hicL
      by_cases hcond : costLt (costSucc (s.minCoins.getD (i - coin) none))
          (s.minCoins.getD i none) = true
      · right
        have hupd : dpUpdate coin s i =
            ⟨s.minCoins.set i (costSucc (s.minCoins.getD (i - coin) none)),
             s.coinUsed.set i coin⟩ := by
          rw [dpUpdate_eq, if_pos hcond]
        have hmc_i : (L.foldl (dpUpdate coin) (dpUpdate coin s i)).minCoins.getD i none
            = costSucc (s.minCoins.getD (i - coin) none) := by
          rw [hu1.1, hupd]
          exact getD_set_self (by omega)
        have hcu_i : (L.foldl (dpUpdate coin) (dpUpdate coin s i)).coinUsed.getD i 0 = coin := by
          rw [hu1.2, hupd]
          exact getD_set_self (by omega)
        have hmc_sub : (L.foldl (dpUpdate coin) (dpUpdate coin s i)).minCoins.getD (i - coin) none
            = s.minCoins.getD (i - coin) none := by
          rw [hu2.1, hupd]
          exact getD_set_ne (by omega)
        refine ⟨List.mem_cons_self _ _, hcu_i, ?_, ?_⟩
        · rw [hmc_i, hmc_sub]
        · rw [hmc_i]
          exact costLt_some_ne_none hcond
      · left
        have hskip : dpUpdate coin s i = s := by
          rw [dpUpdate_eq, if_neg hcond]
        rw [hskip] at hu1 ⊢
        exact hu1
    · have := foldl_dpUpdate_cases coin n hc L (dpUpdate coin s i) j hpw' hge' hlt_n' hlen1' hlen2'
      rcases this with ⟨h1, h2⟩ | h
      · left
        have hne := dpUpdate_getD_ne coin s hij
        exact ⟨h1.trans hne.1, h2.trans hne.2⟩
      · right
        exact ⟨List.mem_cons_of_mem _ h.1, h.2⟩

/-- After one inner-loop pass, the entry at every visited index is at most
one more than the final entry coin positions below it. -/
theorem foldl_dpUpdate_le (coin n : Nat) (hc : 0 < coin) :
    ∀ (L : List Nat) (s : DPState) (j : Nat), L.Pairwise (· < ·) →
      (∀ x ∈ L, coin ≤ x) → (∀ x ∈ L, x < n) →
      s.minCoins.length = n → s.coinUsed.length = n → j ∈ L →
      cLe ((L.foldl (dpUpdate coin) s).minCoins.getD j none)
          (costSucc ((L.foldl (dpUpdate coin) s).minCoins.getD (j - coin) none))
  | [], _, _, _, _, _, _, _, hj => absurd hj (List.not_mem_nil _)
  | i :: L, s, j, hpw, hge, hlt_n, hlen1, hlen2, hj => by
    rw [List.foldl_cons]
    have hpw' := List.Pairwise.of_cons hpw
    have hgt : ∀ x ∈ L, i < x := (List.pairwise_cons.mp hpw).1
    have hge' : ∀ x ∈ L, coin ≤ x := fun x hx => hge x (List.mem_cons_of_mem _ hx)
    have hlt_n' : ∀ x ∈ L, x < n := fun x hx => hlt_n x (List.mem_cons_of_mem _ hx)
    have hupdlen := dpUpdate_len coin s i
    have hlen1' : (dpUpdate coin s i).minCoins.length = n := hupdlen.1.trans hlen1
    have hlen2' : (dpUpdate coin s i).coinUsed.length = n := hupdlen.2.trans hlen2
    rcases List.mem_cons.mp hj with hij | hjL
    · subst hij
      have hin : j < n := hlt_n j (List.mem_cons_self _ _)
      have hcj : coin ≤ j := hge j (List.mem_cons_self _ _)
      have hjL' : j ∉ L := fun h => Nat.lt_irrefl j (hgt j h)
      have hjcL : j - coin ∉ L := fun h =>
        Nat.lt_irrefl j (Nat.lt_of_lt_of_le (hgt _ h) (Nat.sub_le _ _))
      have hu1 := foldl_dpUpdate_notmem coin L (dpUpdate coin s j) j hjL'
      have hu2 := foldl_dpUpdate_notmem coin L (dpUpdate coin s j) (j - coin) hjcL
      by_cases hcond : costLt (costSucc (s.minCoins.getD (j - coin) none))
          (s.minCoins.getD j none) = true
      · have hupd : dpUpdate coin s j =
            ⟨s.minCoins.set j (costSucc (s.minCoins.getD (j - coin) none)),
             s.coinUsed.set j coin⟩ := by
          rw [dpUpdate_eq, if_pos hcond]
        have hmc_j : (L.foldl (dpUpdate coin) (dpUpdate coin s j)).minCoins.getD j none
            = costSucc (s.minCoins.getD (j - coin) none) := by
          rw [hu1.1, hupd]
          exact getD_set_self (by omega)
        have hmc_sub : (L.foldl (dpUpdate coin) (dpUpdate coin s j)).minCoins.getD (j - coin) none
            = s.minCoins.getD (j - coin) none := by
          rw [hu2.1, hupd]
          exact getD_set_ne (by omega)
        rw [hmc_j, hmc_sub]
        exact cLe_refl _
      · have hskip : dpUpdate coin s j = s := by
          rw [dpUpdate_eq, if_neg hcond]
        rw [hskip] at hu1 hu2 ⊢
        rw [hu1.1, hu2.1]
        exact cLe_of_costLt_eq_false (Bool.eq_false_iff.mpr hcond)
    · exact foldl_dpUpdate_le coin n hc L (dpUpdate coin s i) j hpw' hge' hlt_n' hlen1' hlen2' hjL

theorem costLt_costSucc_self : ∀ {a : Cost}, costSucc a ≠ none → costLt a (costSucc a) = true := by
  intro a h
  cases a
  · exact absurd rfl h
  · simp [costSucc, costLt]

theorem costLt_some_right : ∀ {a : Cost} {k : Nat}, costLt a (some k) = true →
    ∃ j, a = some j ∧ j < k := by
  intro a k h
  cases a <;> simp [costLt] at *
  omega

theorem getD_replicate_none (m k : Nat) : (List.replicate m (none : Cost)).getD k none = none := by
  rw [List.getD_eq_getElem?_getD]
  rcases Nat.lt_or_ge k m with h | h
  · simp [List.getElem?_replicate, h]
  · rw [List.getElem?_eq_none (by simpa using h)]
    rfl

/-- Invariant of the DP tables maintained across the outer loop: both
tables have length amount + 1, entry 0 is 0, and every finite entry at a
positive index has a usable coin recorded for it whose predecessor entry is
finite and strictly smaller. -/
structure TableInv (coins : List Nat) (amount : Nat) (s : DPState) : Prop where
  len_mc : s.minCoins.length = amount + 1
  len_cu : s.coinUsed.length = amount + 1
  zero : s.minCoins.getD 0 none = some 0
  recon : ∀ i, 0 < i → i ≤ amount → s.minCoins.getD i none ≠ none →
    s.coinUsed.getD i 0 ∈ coins ∧ 0 < s.coinUsed.getD i 0 ∧ s.coinUsed.getD i 0 ≤ i ∧
    costLt (s.minCoins.getD (i - s.coinUsed.getD i 0) none) (s.minCoins.getD i none) = true

theorem tableInv_init (coins : List Nat) (amount : Nat) :
    TableInv coins amount (initState amount) := by
  refine ⟨?_, ?_, ?_, ?_⟩
  · simp [initState]
  · simp [initState]
  · exact getD_set_self (by simp)
  · intro i hi _ hne
    exfalso
    apply hne
    show ((List.replicate (amount + 1) (none : Cost)).set 0 (some 0)).getD i none = none
    rw [getD_set_ne (by omega)]
    exact getD_replicate_none _ _

theorem range'_facts (amount coin : Nat) :
    (List.range' coin (amount + 1 - coin)).Pairwise (· < ·) ∧
    (∀ x ∈ List.range' coin (amount + 1 - coin), coin ≤ x) ∧
    (∀ x ∈ List.range' coin (amount + 1 - coin), x < amount + 1) := by
  refine ⟨pairwise_lt_range' _ _, ?_, ?_⟩
  · intro x hx
    exact ((List.mem_range'_1).mp hx).1
  · intro x hx
    have := (List.mem_range'_1).mp hx
    omega

theorem dpPass_len (amount coin : Nat) (s : DPState) :
    (dpPass amount coin s).minCoins.length = s.minCoins.length ∧
    (dpPass amount coin s).coinUsed.length = s.coinUsed.length :=
  foldl_dpUpdate_len coin _ s

theorem tableInv_pass (coins : List Nat) (amount coin : Nat)
    (hcm : coin ∈ coins) (hc : 0 < coin) (s : DPState)
    (hinv : TableInv coins amount s) : TableInv coins amount (dpPass amount coin s) := by
  obtain ⟨hpw, hge, hlt⟩ := range'_facts amount coin
  refine ⟨(dpPass_len amount coin s).1.trans hinv.len_mc,
          (dpPass_len amount coin s).2.trans hinv.len_cu, ?_, ?_⟩
  · have h0 : 0 ∉ List.range' coin (amount + 1 - coin) := fun h =>
      Nat.lt_irrefl 0 (Nat.lt_of_lt_of_le hc (hge 0 h))
    have := foldl_dpUpdate_notmem coin _ s 0 h0
    rw [dpPass, this.1]
    exact hinv.zero
  · intro i hi hia hne
    rcases foldl_dpUpdate_cases coin (amount + 1) hc _ s i hpw hge hlt
        hinv.len_mc hinv.len_cu with ⟨h1, h2⟩ | ⟨hiL, hcu, hmc, _⟩
    · rw [dpPass] at hne ⊢
      rw [h1] at hne
      obtain ⟨ha, hb, hcle, hdlt⟩ := hinv.recon i hi hia hne
      rw [h1, h2]
      exact ⟨ha, hb, hcle,
        costLt_of_cLe_left (foldl_dpUpdate_mono coin _ s _) hdlt⟩
    · rw [dpPass] at hne ⊢
      rw [hcu, hmc]
      have hci : coin ≤ i := hge i hiL
      refine ⟨hcm, hc, hci, ?_⟩
      rw [hmc] at hne
      exact costLt_costSucc_self hne

theorem tableInv_fold (coins : List Nat) (amount : Nat) :
    ∀ (cs : List Nat) (s : DPState), (∀ c ∈ cs, c ∈ coins ∧ 0 < c) →
      TableInv coins amount s →
      TableInv coins amount (cs.foldl (fun s coin => dpPass amount coin s) s)
  | [], _, _, hinv => hinv
  | c :: cs, s, hcs, hinv => by
    rw [List.foldl_cons]
    exact tableInv_fold coins amount cs _
      (fun x hx => hcs x (List.mem_cons_of_mem _ hx))
      (tableInv_pass coins amount c (hcs c (List.mem_cons_self _ _)).1
        (hcs c (List.mem_cons_self _ _)).2 s hinv)

theorem dpRun_tableInv (coins : List Nat) (amount : Nat) (hpos : ∀ c ∈ coins, 0 < c) :
    TableInv coins amount (dpRun amount coins) :=
  tableInv_fold coins amount coins (initState amount)
    (fun c hc => ⟨hc, hpos c hc⟩) (tableInv_init coins amount)

/-- Completeness invariant: every multiset drawn from the processed coins
bounds the corresponding table entry. -/
def CompInv (amount : Nat) (P : List Nat) (s : DPState) : Prop :=
  ∀ i, i ≤ amount → ∀ l : List Nat, (∀ x ∈ l, x ∈ P) → l.sum = i →
    cLe (s.minCoins.getD i none) (some l.length)

theorem filter_ne_partition (c : Nat) : ∀ l : List Nat,
    (l.filter (fun x => x ≠ c)).sum + l.count c * c = l.sum ∧
    (l.filter (fun x => x ≠ c)).length + l.count c = l.length
  | [] => by simp
  | x :: l => by
    obtain ⟨ih1, ih2⟩ := filter_ne_partition c l
    by_cases h : x = c
    · rw [show (x :: l).filter (fun y => y ≠ c) = l.filter (fun y => y ≠ c) by simp [h],
          show (x :: l).count c = l.count c + 1 by simp [List.count_cons, h],
          List.sum_cons, Nat.succ_mul, List.length_cons]
      subst h
      constructor <;> omega
    · rw [show (x :: l).filter (fun y => y ≠ c) = x :: l.filter (fun y => y ≠ c) by simp [h],
          show (x :: l).count c = l.count c by simp [List.count_cons, h],
          List.sum_cons, List.sum_cons, List.length_cons, List.length_cons]
      constructor <;> omega

theorem compInv_pass (amount : Nat) (P : List Nat) (coin : Nat) (hc : 0 < coin)
    (s : DPState) (hlen1 : s.minCoins.length = amount + 1)
    (hlen2 : s.coinUsed.length = amount + 1)
    (hinv : CompInv amount P s) : CompInv amount (coin :: P) (dpPass amount coin s) := by
  obtain ⟨hpw, hge, hlt⟩ := range'_facts amount coin
  have key : ∀ (t i : Nat), i ≤ amount → ∀ l : List Nat, (∀ x ∈ l, x ∈ P) →
      l.sum + t * coin = i →
      cLe ((dpPass amount coin s).minCoins.getD i none) (some (l.length + t)) := by
    intro t
    induction t with
    | zero =>
      intro i hi l hl hsum
      have hbase := hinv i hi l hl (by omega)
      exact cLe_trans (foldl_dpUpdate_mono coin _ s i) hbase
    | succ t ih =>
      intro i hi l hl hsum
      have hci : coin ≤ i := by
        have : (t + 1) * coin = t * coin + coin := by ring
        omega
      have hiL : i ∈ List.range' coin (amount + 1 - coin) := by
        rw [List.mem_range'_1]
        omega
      have hstep := foldl_dpUpdate_le coin (amount + 1) hc _ s i hpw hge hlt hlen1 hlen2 hiL
      have hsub := ih (i - coin) (by omega) l hl (by
        have : (t + 1) * coin = t * coin + coin := by ring
        omega)
      exact cLe_trans hstep (cLe_costSucc hsub)
  intro i hi l hl hsum
  have hpart := filter_ne_partition coin l
  have hmem : ∀ x ∈ l.filter (fun x => x ≠ coin), x ∈ P := by
    intro x hx
    rw [List.mem_filter] at hx
    have hx2 : x ≠ coin := by simpa using hx.2
    rcases List.mem_cons.mp (hl x hx.1) with h | h
    · exact absurd h hx2
    · exact h
  have := key (l.count coin) i hi (l.filter (fun x => x ≠ coin)) hmem (by omega)
  rwa [hpart.2] at this

theorem compInv_mono (amount : Nat) (P Q : List Nat) (s : DPState)
    (hPQ : ∀ x ∈ P, x ∈ Q) (h : CompInv amount Q s) : CompInv amount P s :=
  fun i hi l hl hs => h i hi l (fun x hx => hPQ x (hl x hx)) hs

theorem compInv_fold (amount : Nat) :
    ∀ (cs P : List Nat) (s : DPState), (∀ c ∈ cs, 0 < c) →
      s.minCoins.length = amount + 1 → s.coinUsed.length = amount + 1 →
      CompInv amount P s →
      CompInv amount (cs ++ P) (cs.foldl (fun s coin => dpPass amount coin s) s)
  | [], _, _, _, _, _, hinv => hinv
  | c :: cs, P, s, hcs, hlen1, hlen2, hinv => by
    rw [List.foldl_cons]
    have hpass := compInv_pass amount P c (hcs c (List.mem_cons_self _ _)) s hlen1 hlen2 hinv
    have hrec := compInv_fold amount cs (c :: P) (dpPass amount c s)
      (fun x hx => hcs x (List.mem_cons_of_mem _ hx))
      ((dpPass_len amount c s).1.trans hlen1) ((dpPass_len amount c s).2.trans hlen2) hpass
    refine compInv_mono amount _ _ _ ?_ hrec
    intro x hx
    simp only [List.cons_append, List.mem_cons, List.mem_append] at hx ⊢
    tauto

theorem dpRun_compInv (coins : List Nat) (amount : Nat) (hpos : ∀ c ∈ coins, 0 < c) :
    CompInv amount coins (dpRun amount coins) := by
  have base : CompInv amount [] (initState amount) := by
    intro i hi l hl hsum
    cases l with
    | nil =>
      simp at hsum
      subst hsum
      rw [(tableInv_init coins amount).zero]
      exact Nat.le_refl 0
    | cons x l => exact absurd (hl x (List.mem_cons_self _ _)) (List.not_mem_nil _)
  have := compInv_fold amount coins [] (initState amount) hpos
    (tableInv_init coins amount).len_mc (tableInv_init coins amount).len_cu base
  exact compInv_mono amount coins (coins ++ []) _ (by simp) this

/-- The reconstruction walk of find_min_coins, starting from a position
with a finite table entry: it returns coins of the denomination list whose
sum is exactly the start position and whose number is bounded by the table
entry. -/
theorem reconstruct_spec (coins : List Nat) (amount : Nat) (s : DPState)
    (hinv : TableInv coins amount s) :
    ∀ (fuel current k : Nat), current ≤ amount → current ≤ fuel →
      s.minCoins.getD current none = some k →
      ((reconstruct s.coinUsed fuel current).sum = current ∧
       (∀ x ∈ reconstruct s.coinUsed fuel current, x ∈ coins) ∧
       (reconstruct s.coinUsed fuel current).length ≤ k) := by
  intro fuel
  induction fuel with
  | zero =>
    intro current k hca hcf _
    have h0 : current = 0 := Nat.le_zero.mp hcf
    subst h0
    exact ⟨rfl, fun x hx => absurd hx (List.not_mem_nil _), Nat.zero_le _⟩
  | succ fuel ih =>
    intro current k hca hcf hmc
    by_cases h0 : 0 < current
    · obtain ⟨hcmem, hcpos, hcle, hlt⟩ := hinv.recon current h0 hca (by
        rw [hmc]
        exact fun h => Option.noConfusion h)
      rw [hmc] at hlt
      obtain ⟨k', hk', hk'lt⟩ := costLt_some_right hlt
      have ihres := ih (current - s.coinUsed.getD current 0) k' (by omega) (by omega) hk'
      rw [show reconstruct s.coinUsed (Nat.succ fuel) current =
          (if 0 < current then
            s.coinUsed.getD current 0 ::
              reconstruct s.coinUsed fuel (current - s.coinUsed.getD current 0)
          else []) from rfl, if_pos h0]
      refine ⟨?_, ?_, ?_⟩
      · rw [List.sum_cons, ihres.1]
        omega
      · intro x hx
        rcases List.mem_cons.mp hx with h | h
        · rw [h]
          exact hcmem
        · exact ihres.2.1 x h
      · rw [List.length_cons]
        have := ihres.2.2
        omega
    · have h0' : current = 0 := by omega
      subst h0'
      rw [show reconstruct s.coinUsed (Nat.succ fuel) 0 = [] from rfl]
      exact ⟨rfl, fun x hx => absurd hx (List.not_mem_nil _), Nat.zero_le _⟩

theorem count_filter_ne (c k : Nat) (hk : k ≠ c) : ∀ l : List Nat,
    (l.filter (fun x => x ≠ c)).count k = l.count k
  | [] => rfl
  | x :: l => by
    have ih := count_filter_ne c k hk l
    by_cases h : x = c
    · rw [show (x :: l).filter (fun y => y ≠ c) = l.filter (fun y => y ≠ c) by simp [h],
          show (x :: l).count k = l.count k by subst h; simp [List.count_cons, hk]]
      exact ih
    · rw [show (x :: l).filter (fun y => y ≠ c) = x :: l.filter (fun y => y ≠ c) by simp [h],
          List.count_cons, List.count_cons, ih]

/-- Summing denomination times multiplicity (respectively multiplicity)
over any duplicate-free list of keys covering a multiset recovers the sum
(respectively the size) of the multiset. -/
theorem keys_sum_count : ∀ (ks w : List Nat), ks.Nodup → (∀ x ∈ w, x ∈ ks) →
    (ks.map (fun k => k * w.count k)).sum = w.sum ∧
    (ks.map (fun k => w.count k)).sum = w.length
  | [], w, _, hw => by
    cases w with
    | nil => simp
    | cons x w => exact absurd (hw x (List.mem_cons_self _ _)) (List.not_mem_nil _)
  | k0 :: ks, w, hnd, hw => by
    have hk0 : k0 ∉ ks := (List.nodup_cons.mp hnd).1
    have hnd' : ks.Nodup := (List.nodup_cons.mp hnd).2
    have hw2mem : ∀ x ∈ w.filter (fun y => y ≠ k0), x ∈ ks := by
      intro x hx
      rw [List.mem_filter] at hx
      have hx2 : x ≠ k0 := by simpa using hx.2
      rcases List.mem_cons.mp (hw x hx.1) with h | h
      · exact absurd h hx2
      · exact h
    obtain ⟨ihs, ihl⟩ := keys_sum_count ks (w.filter (fun y => y ≠ k0)) hnd' hw2mem
    obtain ⟨hp1, hp2⟩ := filter_ne_partition k0 w
    have hcongr1 : ks.map (fun k => k * w.count k)
        = ks.map (fun k => k * (w.filter (fun y => y ≠ k0)).count k) := by
      refine List.map_congr_left ?_
      intro k hk
      rw [count_filter_ne k0 k (fun he => hk0 (he ▸ hk)) w]
    have hcongr2 : ks.map (fun k => w.count k)
        = ks.map (fun k => (w.filter (fun y => y ≠ k0)).count k) := by
      refine List.map_congr_left ?_
      intro k hk
      rw [count_filter_ne k0 k (fun he => hk0 (he ▸ hk)) w]
    constructor
    · rw [List.map_cons, List.sum_cons, hcongr1, ihs, Nat.mul_comm, Nat.add_comm]
      exact hp1
    · rw [List.map_cons, List.sum_cons, hcongr2, ihl, Nat.add_comm]
      exact hp2

theorem toSortedCounts_sums (w : List Nat) :
    weightedSum (toSortedCounts w) = w.sum ∧ totalCount (toSortedCounts w) = w.length := by
  have hnd : (List.insertionSort (fun a b => a ≤ b) w.dedup).Nodup :=
    (List.perm_insertionSort _ _).nodup_iff.mpr w.nodup_dedup
  have hmem : ∀ x ∈ w, x ∈ List.insertionSort (fun a b => a ≤ b) w.dedup := by
    intro x hx
    exact (List.perm_insertionSort _ _).mem_iff.mpr (List.mem_dedup.mpr hx)
  obtain ⟨h1, h2⟩ := keys_sum_count (List.insertionSort (fun a b => a ≤ b) w.dedup) w hnd hmem
  constructor
  · rw [toSortedCounts, weightedSum, List.map_map]
    exact h1
  · rw [toSortedCounts, totalCount, List.map_map]
    exact h2

theorem toSortedCounts_keys (w : List Nat) : ∀ p ∈ toSortedCounts w, p.1 ∈ w := by
  intro p hp
  rw [toSortedCounts] at hp
  obtain ⟨k, hk, hkp⟩ := List.mem_map.mp hp
  rw [← hkp]
  exact List.mem_dedup.mp ((List.perm_insertionSort _ _).mem_iff.mp hk)

theorem expand_cons (p : Nat × Nat) (m : List (Nat × Nat)) :
    expand (p :: m) = List.replicate p.2 p.1 ++ expand m := rfl

theorem expand_sum : ∀ m : List (Nat × Nat), (expand m).sum = weightedSum m
  | [] => rfl
  | p :: m => by
    rw [expand_cons, List.sum_append, expand_sum m,
      show (List.replicate p.2 p.1).sum = p.2 * p.1 by simp [List.sum_replicate, smul_eq_mul],
      show weightedSum (p :: m) = p.1 * p.2 + weightedSum m by simp [weightedSum],
      Nat.mul_comm]

theorem expand_length : ∀ m : List (Nat × Nat), (expand m).length = totalCount m
  | [] => rfl
  | p :: m => by
    rw [expand_cons, List.length_append, expand_length m, List.length_replicate,
      show totalCount (p :: m) = p.2 + totalCount m by simp [totalCount]]

theorem expand_mem : ∀ (m : List (Nat × Nat)), ∀ x ∈ expand m, ∃ p ∈ m, x = p.1
  | [], x, hx => absurd hx (List.not_mem_nil _)
  | p :: m, x, hx => by
    rw [expand_cons, List.mem_append] at hx
    rcases hx with h | h
    · exact ⟨p, List.mem_cons_self _ _, List.eq_of_mem_replicate h⟩
    · obtain ⟨q, hq, hxq⟩ := expand_mem m x h
      exact ⟨q, List.mem_cons_of_mem _ hq, hxq⟩

theorem find_min_coins_eq (amount : Nat) (coins : List Nat) :
    find_min_coins amount coins =
      if (dpRun amount coins).minCoins.getD amount none = none then []
      else toSortedCounts (reconstruct (dpRun amount coins).coinUsed amount amount) := rfl

/-- Full functional specification of find_min_coins on the precondition
domain: infeasible amounts give the empty dict; feasible amounts give a
dict over the given denominations whose weighted sum is the amount, whose
multiset of coins is realised by a witness list, and whose total coin count
is minimal among all ways to form the amount. -/
theorem find_min_coins_spec (amount : Nat) (coins : List Nat) (hpos : ∀ c ∈ coins, 0 < c) :
    (¬ CanForm coins amount → find_min_coins amount coins = []) ∧
    (CanForm coins amount →
      weightedSum (find_min_coins amount coins) = amount ∧
      (∀ p ∈ find_min_coins amount coins, p.1 ∈ coins) ∧
      (∃ w : List Nat, (∀ x ∈ w, x ∈ coins) ∧ w.sum = amount ∧
        w.length = totalCount (find_min_coins amount coins)) ∧
      (∀ l : List Nat, (∀ x ∈ l, x ∈ coins) → l.sum = amount →
        totalCount (find_min_coins amount coins) ≤ l.length)) := by
  have hti := dpRun_tableInv coins amount hpos
  have hci := dpRun_compInv coins amount hpos
  cases hmc : (dpRun amount coins).minCoins.getD amount none with
  | none =>
    have hempty : find_min_coins amount coins = [] := by
      rw [find_min_coins_eq, if_pos hmc]
    constructor
    · intro _
      exact hempty
    · intro hform
      exfalso
      obtain ⟨l, hl, hsum⟩ := hform
      have := hci amount (Nat.le_refl _) l hl hsum
      rw [hmc] at this
      exact this
  | some k =>
    have hout : find_min_coins amount coins
        = toSortedCounts (reconstruct (dpRun amount coins).coinUsed amount amount) := by
      rw [find_min_coins_eq, if_neg (by rw [hmc]; exact fun h => Option.noConfusion h)]
    obtain ⟨hwsum, hwmem, hwlen⟩ :=
      reconstruct_spec coins amount _ hti amount amount k (Nat.le_refl _) (Nat.le_refl _) hmc
    obtain ⟨hts1, hts2⟩ :=
      toSortedCounts_sums (reconstruct (dpRun amount coins).coinUsed amount amount)
    constructor
    · intro hnot
      exact absurd ⟨reconstruct (dpRun amount coins).coinUsed amount amount, hwmem, hwsum⟩ hnot
    · intro _
      refine ⟨?_, ?_, ?_, ?_⟩
      · rw [hout, hts1, hwsum]
      · intro p hp
        rw [hout] at hp
        exact hwmem _ (toSortedCounts_keys _ p hp)
      · exact ⟨reconstruct (dpRun amount coins).coinUsed amount amount, hwmem, hwsum,
          by rw [hout, hts2]⟩
      · intro l hl hsum
        have hle := hci amount (Nat.le_refl _) l hl hsum
        rw [hmc] at hle
        rw [hout, hts2]
        exact Nat.le_trans hwlen hle

theorem dpPass_amount_zero (coin : Nat) (hc : 0 < coin) (s : DPState) : dpPass 0 coin s = s := by
  rw [dpPass, show 0 + 1 - coin = 0 by omega]
  rfl

theorem foldl_dpPass_amount_zero : ∀ (cs : List Nat), (∀ c ∈ cs, 0 < c) → ∀ s : DPState,
    cs.foldl (fun s coin => dpPass 0 coin s) s = s
  | [], _, _ => rfl
  | c :: cs, h, s => by
    rw [List.foldl_cons, dpPass_amount_zero c (h c (List.mem_cons_self _ _)) s]
    exact foldl_dpPass_amount_zero cs (fun x hx => h x (List.mem_cons_of_mem _ hx)) s

theorem find_min_coins_amount_zero (coins : List Nat) (hpos : ∀ c ∈ coins, 0 < c) :
    find_min_coins 0 coins = [] := by
  rw [find_min_coins_eq, dpRun, foldl_dpPass_amount_zero coins hpos,
    if_neg (by rw [(tableInv_init coins 0).zero]; exact fun h => Option.noConfusion h)]
  rfl

theorem find_coins_greedy_amount_zero (coins : List Nat) : find_coins_greedy 0 coins = [] :=
  greedyLoop_zero _ _

theorem canForm_perm {coins coins' : List Nat} (hp : coins.Perm coins') {amount : Nat}
    (h : CanForm coins amount) : CanForm coins' amount := by
  obtain ⟨l, hl, hs⟩ := h
  exact ⟨l, fun c hc => hp.mem_iff.mp (hl c hc), hs⟩

theorem findMinCoinsPy_neg (amount : Int) (coins : List Int) (h : amount < 0) :
    findMinCoinsPy amount coins = Except.error PyErr.indexError := by
  unfold findMinCoinsPy
  rw [show (amount + 1).toNat = 0 from by omega]
  rfl

theorem findCoinsGreedyPyLoop_neg : ∀ (cs : List Int) (amount : Int) (r : List (Int × Int)),
    amount < 0 → (∀ c ∈ cs, 0 < c) → findCoinsGreedyPyLoop cs amount r = Except.ok r
  | [], _, _, _, _ => rfl
  | c :: cs, amount, r, hneg, hpos => by
    have hc := hpos c (List.mem_cons_self _ _)
    have hdiv : ¬ 0 < Int.fdiv amount c := by
      intro hlt
      have hf := Int.fmod_nonneg' amount hc
      have he := Int.fdiv_add_fmod amount c
      have hprod : 0 < c * Int.fdiv amount c := Int.mul_pos hc hlt
      linarith
    rw [show findCoinsGreedyPyLoop (c :: cs) amount r =
        (if amount = 0 then Except.ok r
         else if c = 0 then Except.error PyErr.zeroDivisionError
         else if 0 < Int.fdiv amount c then
           findCoinsGreedyPyLoop cs (Int.fmod amount c) (r ++ [(c, Int.fdiv amount c)])
         else findCoinsGreedyPyLoop cs amount r) from rfl,
      if_neg (by omega), if_neg (by omega), if_neg hdiv]
    exact findCoinsGreedyPyLoop_neg cs amount r hneg
      (fun x hx => hpos x (List.mem_cons_of_mem _ hx))

theorem findCoinsGreedyPy_neg (amount : Int) (coins : List Int)
    (hneg : amount < 0) (hpos : ∀ c ∈ coins, 0 < c) :
    findCoinsGreedyPy amount coins = Except.ok [] :=
  findCoinsGreedyPyLoop_neg _ amount [] hneg
    (fun c hc => hpos c ((List.perm_insertionSort _ _).mem_iff.mp hc))

/-- Claim C1: for every amount and every non-empty list of positive
denominations, if the amount can be formed exactly from the denominations
(unlimited supply) then find_min_coins returns a decomposition of the
amount over those denominations whose total coin count is minimal among
all decompositions of that amount (stated both against every coin multiset
and against every decomposition mapping); if the amount cannot be formed
it returns the empty mapping. -/
theorem find_min_coins_optimal (amount : Nat) (coins : List Nat)
    (hne : coins ≠ []) (hpos : ∀ c ∈ coins, 0 < c) :
    (CanForm coins amount →
      weightedSum (find_min_coins amount coins) = amount ∧
      (∀ p ∈ find_min_coins amount coins, p.1 ∈ coins) ∧
      (∀ l : List Nat, (∀ x ∈ l, x ∈ coins) → l.sum = amount →
        totalCount (find_min_coins amount coins) ≤ l.length) ∧
      (∀ m : List (Nat × Nat), (∀ p ∈ m, p.1 ∈ coins) → weightedSum m = amount →
        totalCount (find_min_coins amount coins) ≤ totalCount m)) ∧
    (¬ CanForm coins amount → find_min_coins amount coins = []) := by
  have h := find_min_coins_spec amount coins hpos
  refine ⟨fun hf => ?_, h.1⟩
  obtain ⟨hw, hk, _, hmin⟩ := h.2 hf
  refine ⟨hw, hk, hmin, ?_⟩
  intro m hm hsum
  have hmem : ∀ x ∈ expand m, x ∈ coins := by
    intro x hx
    obtain ⟨p, hp, hxp⟩ := expand_mem m x hx
    rw [hxp]
    exact hm p hp
  have hlist := hmin (expand m) hmem (by rw [expand_sum]; exact hsum)
  rwa [expand_length] at hlist

/-- Witness for C1 at amount 12 and denominations [9, 6, 1], with the coin
multiset [6, 6] discharging feasibility. -/
theorem find_min_coins_optimal_witness :
    weightedSum (find_min_coins 12 [9, 6, 1]) = 12 ∧
    totalCount (find_min_coins 12 [9, 6, 1]) ≤ [6, 6].length := by
  have h := (find_min_coins_optimal 12 [9, 6, 1] (by decide) (by decide)).1
    ⟨[6, 6], by decide, by decide⟩
  exact ⟨h.1, h.2.2.1 [6, 6] (by decide) (by decide)⟩

/-- Claim C2: for every amount and list of positive denominations,
whenever the mapping returned by find_min_coins is non-empty or the amount
is 0, the sum of denomination times count over the mapping equals the
amount. -/
theorem find_min_coins_roundtrip (amount : Nat) (coins : List Nat)
    (hpos : ∀ c ∈ coins, 0 < c)
    (h : find_min_coins amount coins ≠ [] ∨ amount = 0) :
    weightedSum (find_min_coins amount coins) = amount := by
  rcases h with hne | h0
  · by_cases hform : CanForm coins amount
    · exact ((find_min_coins_spec amount coins hpos).2 hform).1
    · exact absurd ((find_min_coins_spec amount coins hpos).1 hform) hne
  · subst h0
    rw [find_min_coins_amount_zero coins hpos]
    rfl

/-- Witness for C2 at amount 12 and denominations [9, 6, 1]. -/
theorem find_min_coins_roundtrip_witness :
    weightedSum (find_min_coins 12 [9, 6, 1]) = 12 :=
  find_min_coins_roundtrip 12 [9, 6, 1] (by decide) (Or.inl (by decide))

/-- Counterexample to C3 as stated: at amount 6 with denominations [5, 3]
the greedy result {5: 1} (1 coin, incomplete) has fewer coins than the
optimal complete result {3: 2} (2 coins), so the optimal total coin count
is not bounded by the greedy one on all inputs. -/
theorem optimal_le_greedy_counterexample :
    totalCount (find_min_coins 6 [5, 3]) = 2 ∧
    totalCount (find_coins_greedy 6 [5, 3]) = 1 ∧
    ¬ totalCount (find_min_coins 6 [5, 3]) ≤ totalCount (find_coins_greedy 6 [5, 3]) := by
  decide

/-- Claim C3 (amended): whenever the greedy mapping actually reaches the
amount (its weighted sum equals the amount, as it always does when 1 is a
denomination), the optimal total coin count is at most the greedy total
coin count. -/
theorem optimal_le_greedy_amended (amount : Nat) (coins : List Nat)
    (hpos : ∀ c ∈ coins, 0 < c)
    (hexact : weightedSum (find_coins_greedy amount coins) = amount) :
    totalCount (find_min_coins amount coins) ≤ totalCount (find_coins_greedy amount coins) := by
  have hmem : ∀ x ∈ expand (find_coins_greedy amount coins), x ∈ coins := by
    intro x hx
    obtain ⟨p, hp, hxp⟩ := expand_mem _ x hx
    rw [hxp]
    exact find_coins_greedy_keys amount coins p hp
  have hform : CanForm coins amount :=
    ⟨expand (find_coins_greedy amount coins), hmem, by rw [expand_sum]; exact hexact⟩
  have hmin := ((find_min_coins_spec amount coins hpos).2 hform).2.2.2
    (expand (find_coins_greedy amount coins)) hmem (by rw [expand_sum]; exact hexact)
  rwa [expand_length] at hmin

/-- Witness for the amended C3 at amount 12 and denominations [9, 6, 1]. -/
theorem optimal_le_greedy_amended_witness :
    totalCount (find_min_coins 12 [9, 6, 1]) ≤ totalCount (find_coins_greedy 12 [9, 6, 1]) :=
  optimal_le_greedy_amended 12 [9, 6, 1] (by decide) (by decide)

/-- Claim C4: for every positive amount that cannot be formed from the
positive denominations, find_min_coins returns the empty mapping as a
normal value (in the embedding it is a total function, never an error
path); in particular find_min_coins 1 [9, 6] is the empty mapping. -/
theorem find_min_coins_infeasible_empty (amount : Nat) (coins : List Nat)
    (hpos : ∀ c ∈ coins, 0 < c) (hamount : 0 < amount)
    (hinf : ¬ CanForm coins amount) :
    find_min_coins amount coins = [] ∧ find_min_coins 1 [9, 6] = [] :=
  ⟨(find_min_coins_spec amount coins hpos).1 hinf, by decide⟩

/-- Witness for C4 at amount 1 and denominations [9, 6], with an explicit
proof that 1 cannot be formed from 9 and 6. -/
theorem find_min_coins_infeasible_empty_witness :
    find_min_coins 1 [9, 6] = [] ∧ find_min_coins 1 [9, 6] = [] :=
  find_min_coins_infeasible_empty 1 [9, 6] (by decide) (by decide) (by
    rintro ⟨l, hl, hsum⟩
    cases l with
    | nil => simp at hsum
    | cons x xs =>
      have hx : x = 9 ∨ x = 6 := by simpa using hl x (List.mem_cons_self _ _)
      have hsum' : x + xs.sum = 1 := by simpa using hsum
      rcases hx with h | h <;> omega)

/-- Counterexample to C5 as stated: [7, 5, 6] is a permutation of
[5, 6, 7], yet at amount 12 find_min_coins returns the mapping {6: 2} for
the first order and the different mapping {5: 1, 7: 1} for the second
(both outputs are sorted by key, so list equality is dict equality). -/
theorem order_independent_counterexample :
    List.Perm [5, 6, 7] [7, 5, 6] ∧
    find_min_coins 12 [5, 6, 7] = [(6, 2)] ∧
    find_min_coins 12 [7, 5, 6] = [(5, 1), (7, 1)] := by
  refine ⟨by decide, by decide, by decide⟩

/-- Claim C5 (amended): the returned mapping itself depends on the order of
the denominations (tie-breaking between equal-cost choices follows the
iteration order), but its total coin count and its weighted sum are
invariant under every permutation of the denomination list. -/
theorem order_independent_amended (amount : Nat) (coins coins' : List Nat)
    (hpos : ∀ c ∈ coins, 0 < c) (hperm : coins.Perm coins') :
    totalCount (find_min_coins amount coins) = totalCount (find_min_coins amount coins') ∧
    weightedSum (find_min_coins amount coins) = weightedSum (find_min_coins amount coins') := by
  have hpos' : ∀ c ∈ coins', 0 < c := fun c hc => hpos c (hperm.mem_iff.mpr hc)
  have h := find_min_coins_spec amount coins hpos
  have h' := find_min_coins_spec amount coins' hpos'
  by_cases hform : CanForm coins amount
  · have hform' : CanForm coins' amount := canForm_perm hperm hform
    obtain ⟨hw, _, ⟨w1, hw1m, hw1s, hw1l⟩, hmin⟩ := h.2 hform
    obtain ⟨hw', _, ⟨w2, hw2m, hw2s, hw2l⟩, hmin'⟩ := h'.2 hform'
    constructor
    · apply Nat.le_antisymm
      · have := hmin w2 (fun x hx => hperm.mem_iff.mpr (hw2m x hx)) hw2s
        omega
      · have := hmin' w1 (fun x hx => hperm.mem_iff.mp (hw1m x hx)) hw1s
        omega
    · rw [hw, hw']
  · have hform' : ¬ CanForm coins' amount := fun hf => hform (canForm_perm hperm.symm hf)
    rw [h.1 hform, h'.1 hform']
    exact ⟨rfl, rfl⟩

/-- Witness for the amended C5 at amount 12 with the permuted denomination
lists [5, 6, 7] and [7, 5, 6]. -/
theorem order_independent_amended_witness :
    totalCount (find_min_coins 12 [5, 6, 7]) = totalCount (find_min_coins 12 [7, 5, 6]) ∧
    weightedSum (find_min_coins 12 [5, 6, 7]) = weightedSum (find_min_coins 12 [7, 5, 6]) :=
  order_independent_amended 12 [5, 6, 7] [7, 5, 6] (by decide) (by decide)

/-- Counterexample to C6 as stated: on the invalid input amount -1 with
denominations [5], find_coins_greedy does not signal any error; it returns
the empty mapping as a normal value. -/
theorem invalid_input_counterexample :
    findCoinsGreedyPy (-1) [5] = Except.ok [] := rfl

/-- Claim C6 (amended): on a negative amount, find_min_coins does fail
with an exception (an IndexError while initialising the table), but
find_coins_greedy silently returns the empty mapping (for positive
denominations) instead of signaling an error. -/
theorem invalid_input_amended (amount : Int) (coins : List Int)
    (hneg : amount < 0) (hpos : ∀ c ∈ coins, 0 < c) :
    findMinCoinsPy amount coins = Except.error PyErr.indexError ∧
    findCoinsGreedyPy amount coins = Except.ok [] :=
  ⟨findMinCoinsPy_neg amount coins hneg, findCoinsGreedyPy_neg amount coins hneg hpos⟩

/-- Witness for the amended C6 at amount -1 and denominations [5]. -/
theorem invalid_input_amended_witness :
    findMinCoinsPy (-1) [5] = Except.error PyErr.indexError ∧
    findCoinsGreedyPy (-1) [5] = Except.ok [] :=
  invalid_input_amended (-1) [5] (by decide) (by decide)

/-- Claim C7: for every amount and every list of positive denominations
containing 1, both find_coins_greedy and find_min_coins return mappings
whose weighted sum equals the amount exactly. -/
theorem canonical_exact (amount : Nat) (coins : List Nat)
    (hpos : ∀ c ∈ coins, 0 < c) (h1 : 1 ∈ coins) :
    weightedSum (find_coins_greedy amount coins) = amount ∧
    weightedSum (find_min_coins amount coins) = amount := by
  refine ⟨find_coins_greedy_sum_of_one_mem amount coins h1, ?_⟩
  have hform : CanForm coins amount :=
    ⟨List.replicate amount 1,
     fun c hc => by rw [List.eq_of_mem_replicate hc]; exact h1,
     by simp⟩
  exact ((find_min_coins_spec amount coins hpos).2 hform).1

/-- Witness for C7 at amount 113 and denominations [50, 25, 10, 5, 2, 1]. -/
theorem canonical_exact_witness :
    weightedSum (find_coins_greedy 113 [50, 25, 10, 5, 2, 1]) = 113 ∧
    weightedSum (find_min_coins 113 [50, 25, 10, 5, 2, 1]) = 113 :=
  canonical_exact 113 [50, 25, 10, 5, 2, 1] (by decide) (by decide)

/-- Claim C8: on amount 12 with denominations [9, 6, 1], find_coins_greedy
returns exactly the dict {9: 1, 1: 3} (4 coins, in its insertion order)
and find_min_coins returns exactly {6: 2} (2 coins). -/
theorem concrete_greedy_dp_12 :
    find_coins_greedy 12 [9, 6, 1] = [(9, 1), (1, 3)] ∧
    find_min_coins 12 [9, 6, 1] = [(6, 2)] ∧
    totalCount (find_coins_greedy 12 [9, 6, 1]) = 4 ∧
    totalCount (find_min_coins 12 [9, 6, 1]) = 2 := by
  decide

/-- Claim C9: for every list of positive denominations, both functions
return the empty mapping on amount 0. -/
theorem zero_amount_empty (coins : List Nat) (hpos : ∀ c ∈ coins, 0 < c) :
    find_coins_greedy 0 coins = [] ∧ find_min_coins 0 coins = [] :=
  ⟨find_coins_greedy_amount_zero coins, find_min_coins_amount_zero coins hpos⟩

/-- Witness for C9 with denominations [9, 6, 1]. -/
theorem zero_amount_empty_witness :
    find_coins_greedy 0 [9, 6, 1] = [] ∧ find_min_coins 0 [9, 6, 1] = [] :=
  zero_amount_empty [9, 6, 1] (by decide)

/-- Claim C10: for every amount and list of positive denominations, the
weighted sum of the greedy mapping never exceeds the amount. -/
theorem greedy_never_exceeds (amount : Nat) (coins : List Nat)
    (hpos : ∀ c ∈ coins, 0 < c) :
    weightedSum (find_coins_greedy amount coins) ≤ amount :=
  find_coins_greedy_sum_le amount coins

/-- Witness for C10 at amount 6 and denominations [5, 3]. -/
theorem greedy_never_exceeds_witness :
    weightedSum (find_coins_greedy 6 [5, 3]) ≤ 6 :=
  greedy_never_exceeds 6 [5, 3] (by decide)

end FindCoins
